import Mathlib

/-!
Shallow embedding of the format-preserving-encryption engine `FPEInteger`
from `src/aesffx.py`: a Feistel network over the integer domain
`[0, radix ^ width)`.

Embedding conventions:
* Python big integers become `Nat`; where Python subtraction can go negative
  (`(work[i_to] - temp) % m`), the computation is done in `Int` with `Int.emod`
  (which agrees with the Python floor-mod for a positive modulus) and the
  non-negative result is brought back to `Nat`.
* The two-element `work` list becomes a pair; the `i_from, i_to` index pair is
  represented by `i_from` alone, with `i_to = 1 - i_from`, exactly mirroring
  the swap `i_from, i_to = i_to, i_from`.
* The `struct.error` exception raised by `struct.pack("<QQ", ...)` when a value
  does not fit an unsigned 64-bit field becomes `Option` (`none` = exception).
* The AES-ECB single-block cipher (`Crypto.Cipher.AES`, an external dependency
  outside this repository) is modelled as an abstract function `aes : Nat → Nat`
  acting on 16-byte blocks read as little-endian 128-bit integers.
-/

/-- The engine state built by `FPEInteger.__init__`: the keyed cipher object,
the round count, the two sub-block moduli `self.modulos`, the domain size
`self.block_size`, and which of the two block-encryption variants
`__init__` bound to `self.block_encrypt_func`. -/
structure FPEInteger where
  aes : Nat → Nat
  rounds : Nat
  modulos0 : Nat
  modulos1 : Nat
  block_size : Nat
  useSmall : Bool

/-- Embedding of `FPEInteger.__init__(key, rounds, radix, width)`: derives
`part_widths = [(width + 1) // 2, width // 2]`,
`modulos[i] = radix ** part_widths[i]`, `block_size = radix ** width`, and
selects `block_encrypt_func_small` when `block_size <= 2**32` or
(`block_size <= 2**64` and `2**128 % block_size == 0`), otherwise
`block_encrypt_func_large`. -/
def FPEInteger.init (aes : Nat → Nat) (rounds radix width : Nat) : FPEInteger :=
  { aes := aes
    rounds := rounds
    modulos0 := radix ^ ((width + 1) / 2)
    modulos1 := radix ^ (width / 2)
    block_size := radix ^ width
    useSmall :=
      decide (radix ^ width ≤ 2 ^ 32 ∨
        (radix ^ width ≤ 2 ^ 64 ∧ 2 ^ 128 % radix ^ width = 0)) }

/-- Embedding of `FPEInteger.split_message`: `work_0 = message % modulos[0]`, then
`message //= modulos[0]` and `work_1 = message % modulos[1]`. -/
def FPEInteger.split_message (e : FPEInteger) (message : Nat) : Nat × Nat :=
  (message % e.modulos0, message / e.modulos0 % e.modulos1)

/-- Embedding of `FPEInteger.join_message`: `(work[1] * modulos[0]) + work[0]`. -/
def FPEInteger.join_message (e : FPEInteger) (work : Nat × Nat) : Nat :=
  work.2 * e.modulos0 + work.1

/-- Embedding of `struct.pack("<QQ", round_num, work_val)`: succeeds exactly when both
values fit an unsigned 64-bit field (otherwise `struct.error` is raised), and
the resulting 16-byte buffer, read as a little-endian integer, is
`round_num + work_val * 2 ^ 64` (first eight bytes `round_num`, next eight
`work_val`). -/
def packQQ (round_num work_val : Nat) : Option Nat :=
  if round_num < 2 ^ 64 ∧ work_val < 2 ^ 64 then
    some (round_num + work_val * 2 ^ 64)
  else
    none

/-- Embedding of `FPEInteger.block_encrypt_func_small`: pack, encrypt one AES block, unpack
with `"<8xQ"` (skip eight bytes, read bytes 8..16 as a little-endian unsigned
64-bit integer, i.e. `aes_output / 2 ^ 64 % 2 ^ 64`), reduce mod `out_modulo`. -/
def FPEInteger.block_encrypt_func_small
    (e : FPEInteger) (work_val round_num out_modulo : Nat) : Option Nat :=
  match packQQ round_num work_val with
  | none => none
  | some byte_data => some (e.aes byte_data / 2 ^ 64 % 2 ^ 64 % out_modulo)

/-- Embedding of `FPEInteger.block_encrypt_func_large`: pack, encrypt one AES block, unpack
with `"<QQ"` into `temp_lo` and `temp_hi`, recombine as
`(temp_hi << 64) | temp_lo` (the full 128-bit little-endian value), reduce
mod `out_modulo`. -/
def FPEInteger.block_encrypt_func_large
    (e : FPEInteger) (work_val round_num out_modulo : Nat) : Option Nat :=
  match packQQ round_num work_val with
  | none => none
  | some byte_data =>
      some ((e.aes byte_data / 2 ^ 64 % 2 ^ 64 * 2 ^ 64 + e.aes byte_data % 2 ^ 64)
        % out_modulo)

/-- The `self.block_encrypt_func` bound method: the variant chosen at
construction time. -/
def FPEInteger.block_encrypt_func
    (e : FPEInteger) (work_val round_num out_modulo : Nat) : Option Nat :=
  if e.useSmall then e.block_encrypt_func_small work_val round_num out_modulo
  else e.block_encrypt_func_large work_val round_num out_modulo

/-- The `for round_num in range(self.rounds)` loop of `FPEInteger.encrypt`,
recursing over the list of round numbers with the current `work` pair and
`i_from` index: `temp = block_encrypt_func(work[i_from], round_num,
modulos[i_to])`, `work[i_to] = (work[i_to] + temp) % modulos[i_to]`, then the
indices swap. -/
def FPEInteger.encryptLoop (e : FPEInteger) :
    List Nat → Nat × Nat → Nat → Option (Nat × Nat)
  | [], work, _ => some work
  | round_num :: rest, work, i_from =>
    let wf := if i_from = 0 then work.1 else work.2
    let mto := if i_from = 0 then e.modulos1 else e.modulos0
    match e.block_encrypt_func wf round_num mto with
    | none => none
    | some temp =>
        let work1 :=
          if i_from = 0 then (work.1, (work.2 + temp) % e.modulos1)
          else ((work.1 + temp) % e.modulos0, work.2)
        e.encryptLoop rest work1 (1 - i_from)

/-- Embedding of `FPEInteger.encrypt`: split, run the ascending round loop starting from
`i_from = 0`, join. -/
def FPEInteger.encrypt (e : FPEInteger) (message : Nat) : Option Nat :=
  (e.encryptLoop (List.range e.rounds) (e.split_message message) 0).map
    e.join_message

/-- The `for round_num in range(self.rounds - 1, -1, -1)` loop of
`FPEInteger.decrypt`: same round-function call, but
`work[i_to] = (work[i_to] - temp) % modulos[i_to]` with Python floor-mod
(embedded through `Int.emod`, which agrees with it for a positive modulus). -/
def FPEInteger.decryptLoop (e : FPEInteger) :
    List Nat → Nat × Nat → Nat → Option (Nat × Nat)
  | [], work, _ => some work
  | round_num :: rest, work, i_from =>
    let wf := if i_from = 0 then work.1 else work.2
    let mto := if i_from = 0 then e.modulos1 else e.modulos0
    match e.block_encrypt_func wf round_num mto with
    | none => none
    | some temp =>
        let wt := if i_from = 0 then work.2 else work.1
        let wt1 := (((wt : Int) - (temp : Int)) % (mto : Int)).toNat
        let work1 := if i_from = 0 then (work.1, wt1) else (wt1, work.2)
        e.decryptLoop rest work1 (1 - i_from)

/-- Embedding of `FPEInteger.decrypt`: split, run the descending round loop
(`range(rounds - 1, -1, -1)` is `(List.range rounds).reverse`) starting from
`i_from = (self.rounds - 1) % 2` — computed in `Int` because the Python
floor-mod yields `(-1) % 2 = 1` when `rounds = 0` — and join. -/
def FPEInteger.decrypt (e : FPEInteger) (message : Nat) : Option Nat :=
  (e.decryptLoop (List.range e.rounds).reverse (e.split_message message)
      ((((e.rounds : Int) - 1) % 2).toNat)).map
    e.join_message

/-- Instrumented variant of `FPEInteger.encryptLoop` that additionally records,
in call order, the `(work_val, round_num, out_modulo)` argument triple of every
`block_encrypt_func` invocation the loop performs. -/
def FPEInteger.encryptLoopTr (e : FPEInteger) :
    List Nat → Nat × Nat → Nat → Option ((Nat × Nat) × List (Nat × Nat × Nat))
  | [], work, _ => some (work, [])
  | round_num :: rest, work, i_from =>
    let wf := if i_from = 0 then work.1 else work.2
    let mto := if i_from = 0 then e.modulos1 else e.modulos0
    match e.block_encrypt_func wf round_num mto with
    | none => none
    | some temp =>
        let work1 :=
          if i_from = 0 then (work.1, (work.2 + temp) % e.modulos1)
          else ((work.1 + temp) % e.modulos0, work.2)
        match e.encryptLoopTr rest work1 (1 - i_from) with
        | none => none
        | some (w2, tr) => some (w2, (wf, round_num, mto) :: tr)

/-- Instrumented variant of `FPEInteger.decryptLoop`, recording the same
call-argument trace. -/
def FPEInteger.decryptLoopTr (e : FPEInteger) :
    List Nat → Nat × Nat → Nat → Option ((Nat × Nat) × List (Nat × Nat × Nat))
  | [], work, _ => some (work, [])
  | round_num :: rest, work, i_from =>
    let wf := if i_from = 0 then work.1 else work.2
    let mto := if i_from = 0 then e.modulos1 else e.modulos0
    match e.block_encrypt_func wf round_num mto with
    | none => none
    | some temp =>
        let wt := if i_from = 0 then work.2 else work.1
        let wt1 := (((wt : Int) - (temp : Int)) % (mto : Int)).toNat
        let work1 := if i_from = 0 then (work.1, wt1) else (wt1, work.2)
        match e.decryptLoopTr rest work1 (1 - i_from) with
        | none => none
        | some (w2, tr) => some (w2, (wf, round_num, mto) :: tr)

/-- The instrumented encryption loop computes the same result as the plain one. -/
theorem FPEInteger.encryptLoopTr_fst (e : FPEInteger) :
    ∀ (rs : List Nat) (work : Nat × Nat) (i : Nat),
      (e.encryptLoopTr rs work i).map Prod.fst = e.encryptLoop rs work i := by
  intro rs
  induction rs with
  | nil => intro work i; rfl
  | cons r rest ih =>
      intro work i
      simp only [FPEInteger.encryptLoopTr, FPEInteger.encryptLoop]
      cases hbef : e.block_encrypt_func (if i = 0 then work.1 else work.2) r
          (if i = 0 then e.modulos1 else e.modulos0) with
      | none => rfl
      | some temp =>
          dsimp only
          cases hrec : e.encryptLoopTr rest
              (if i = 0 then (work.1, (work.2 + temp) % e.modulos1)
               else ((work.1 + temp) % e.modulos0, work.2)) (1 - i) with
          | none =>
              have h := ih (if i = 0 then (work.1, (work.2 + temp) % e.modulos1)
                else ((work.1 + temp) % e.modulos0, work.2)) (1 - i)
              rw [hrec] at h
              simpa using h
          | some p =>
              obtain ⟨w2, tr⟩ := p
              have h := ih (if i = 0 then (work.1, (work.2 + temp) % e.modulos1)
                else ((work.1 + temp) % e.modulos0, work.2)) (1 - i)
              rw [hrec] at h
              simpa using h

/-- The instrumented decryption loop computes the same result as the plain one. -/
theorem FPEInteger.decryptLoopTr_fst (e : FPEInteger) :
    ∀ (rs : List Nat) (work : Nat × Nat) (i : Nat),
      (e.decryptLoopTr rs work i).map Prod.fst = e.decryptLoop rs work i := by
  intro rs
  induction rs with
  | nil => intro work i; rfl
  | cons r rest ih =>
      intro work i
      by_cases hi : i = 0
      · subst hi
        simp only [FPEInteger.decryptLoopTr, FPEInteger.decryptLoop, eq_self_iff_true, if_true]
        cases hbef : e.block_encrypt_func work.1 r e.modulos1 with
        | none => rfl
        | some temp =>
            dsimp only
            cases hrec : e.decryptLoopTr rest
                (work.1, (((work.2 : Int) - (temp : Int)) % ((e.modulos1 : Nat) : Int)).toNat)
                (1 - 0) with
            | none =>
                have h := ih (work.1,
                  (((work.2 : Int) - (temp : Int)) % ((e.modulos1 : Nat) : Int)).toNat) (1 - 0)
                rw [hrec] at h
                simpa using h
            | some p =>
                obtain ⟨w2, tr⟩ := p
                have h := ih (work.1,
                  (((work.2 : Int) - (temp : Int)) % ((e.modulos1 : Nat) : Int)).toNat) (1 - 0)
                rw [hrec] at h
                simpa using h
      · simp only [FPEInteger.decryptLoopTr, FPEInteger.decryptLoop, if_neg hi]
        cases hbef : e.block_encrypt_func work.2 r e.modulos0 with
        | none => rfl
        | some temp =>
            dsimp only
            cases hrec : e.decryptLoopTr rest
                ((((work.1 : Int) - (temp : Int)) % ((e.modulos0 : Nat) : Int)).toNat, work.2)
                (1 - i) with
            | none =>
                have h := ih ((((work.1 : Int) - (temp : Int))
                  % ((e.modulos0 : Nat) : Int)).toNat, work.2) (1 - i)
                rw [hrec] at h
                simpa using h
            | some p =>
                obtain ⟨w2, tr⟩ := p
                have h := ih ((((work.1 : Int) - (temp : Int))
                  % ((e.modulos0 : Nat) : Int)).toNat, work.2) (1 - i)
                rw [hrec] at h
                simpa using h

/-- Unfolding equation for one encryption round. -/
theorem FPEInteger.encryptLoopTr_cons (e : FPEInteger) (r : Nat) (rest : List Nat)
    (work : Nat × Nat) (i : Nat) :
    e.encryptLoopTr (r :: rest) work i =
      match e.block_encrypt_func (if i = 0 then work.1 else work.2) r
          (if i = 0 then e.modulos1 else e.modulos0) with
      | none => none
      | some temp =>
        match e.encryptLoopTr rest
            (if i = 0 then (work.1, (work.2 + temp) % e.modulos1)
             else ((work.1 + temp) % e.modulos0, work.2)) (1 - i) with
        | none => none
        | some (w2, tr) =>
            some (w2, (if i = 0 then work.1 else work.2, r,
              if i = 0 then e.modulos1 else e.modulos0) :: tr) := rfl

/-- Unfolding equation for one decryption round. -/
theorem FPEInteger.decryptLoopTr_cons (e : FPEInteger) (r : Nat) (rest : List Nat)
    (work : Nat × Nat) (i : Nat) :
    e.decryptLoopTr (r :: rest) work i =
      match e.block_encrypt_func (if i = 0 then work.1 else work.2) r
          (if i = 0 then e.modulos1 else e.modulos0) with
      | none => none
      | some temp =>
        match e.decryptLoopTr rest
            (if i = 0
             then (work.1, ((((if i = 0 then work.2 else work.1) : Nat) : Int) - (temp : Int))
               % (((if i = 0 then e.modulos1 else e.modulos0) : Nat) : Int) |>.toNat)
             else (((((if i = 0 then work.2 else work.1) : Nat) : Int) - (temp : Int))
               % (((if i = 0 then e.modulos1 else e.modulos0) : Nat) : Int) |>.toNat,
               work.2)) (1 - i) with
        | none => none
        | some (w2, tr) =>
            some (w2, (if i = 0 then work.1 else work.2, r,
              if i = 0 then e.modulos1 else e.modulos0) :: tr) := rfl

/-- Undoing an additive Feistel half-round: subtracting the same round-function
output modulo the same modulus (Python floor-mod, i.e. `Int.emod`) restores the
previous sub-block value. -/
theorem dec_step_val (a temp m : Nat) (ha : a < m) :
    (((((a + temp) % m : Nat) : Int) - (temp : Int)) % ((m : Nat) : Int)).toNat = a := by
  have hm0 : 0 < m := lt_of_le_of_lt (Nat.zero_le a) ha
  have h1 : (((a + temp) % m : Nat) : Int) = ((a : Int) + (temp : Int)) % ((m : Nat) : Int) := by
    push_cast
    rfl
  rw [h1, Int.sub_emod, Int.emod_emod_of_dvd _ dvd_rfl, ← Int.sub_emod,
    add_sub_cancel_right]
  rw [Int.emod_eq_of_lt (by positivity) (by exact_mod_cast ha)]
  simp

/-- Redoing a subtractive Feistel half-round: adding the same round-function
output modulo the same modulus restores the previous sub-block value. -/
theorem enc_step_val (a temp m : Nat) (ha : a < m) :
    ((((a : Int) - (temp : Int)) % ((m : Nat) : Int)).toNat + temp) % m = a := by
  have hm0 : 0 < m := lt_of_le_of_lt (Nat.zero_le a) ha
  have hmZ : ((m : Nat) : Int) ≠ 0 := by exact_mod_cast hm0.ne.symm
  have hb0 : 0 ≤ ((a : Int) - (temp : Int)) % ((m : Nat) : Int) := Int.emod_nonneg _ hmZ
  have hcast : (((((a : Int) - (temp : Int)) % ((m : Nat) : Int)).toNat : Nat) : Int)
      = ((a : Int) - (temp : Int)) % ((m : Nat) : Int) := Int.toNat_of_nonneg hb0
  have h2 : ((((((a : Int) - (temp : Int)) % ((m : Nat) : Int)).toNat + temp) % m : Nat) : Int)
      = ((a : Nat) : Int) := by
    push_cast [hcast]
    rw [Int.add_emod, Int.emod_emod_of_dvd _ dvd_rfl, ← Int.add_emod, sub_add_cancel]
    exact Int.emod_eq_of_lt (by positivity) (by exact_mod_cast ha)
  exact_mod_cast h2

/-- The Python expression `(rounds - 1) % 2` (floor-mod on `int`) on `Nat`. -/
theorem decryptIdx_eq (n : Nat) : (((n : Int) - 1) % 2).toNat = (n + 1) % 2 := by
  omega

/-- A Python floor-mod result is below a positive modulus. -/
theorem toNat_emod_lt (x : Int) (m : Nat) (hm : 0 < m) :
    (x % ((m : Nat) : Int)).toNat < m := by
  have h1 : 0 ≤ x % ((m : Nat) : Int) := Int.emod_nonneg _ (by exact_mod_cast hm.ne.symm)
  have h2 : x % ((m : Nat) : Int) < ((m : Nat) : Int) := Int.emod_lt_of_pos _ (by exact_mod_cast hm)
  omega

/-- Every state the encryption loop produces keeps both sub-block values below
their moduli. -/
theorem FPEInteger.encryptLoopTr_bounds (e : FPEInteger) :
    ∀ (rs : List Nat) (work : Nat × Nat) (i : Nat),
      0 < e.modulos0 → 0 < e.modulos1 →
      work.1 < e.modulos0 → work.2 < e.modulos1 →
      ∀ w2 tr, e.encryptLoopTr rs work i = some (w2, tr) →
        w2.1 < e.modulos0 ∧ w2.2 < e.modulos1 := by
  intro rs
  induction rs with
  | nil =>
      intro work i h0 h1 hw1 hw2 w2 tr h
      simp only [FPEInteger.encryptLoopTr, Option.some.injEq, Prod.mk.injEq] at h
      obtain ⟨hw, -⟩ := h
      subst hw
      exact ⟨hw1, hw2⟩
  | cons r rest ih =>
      intro work i h0 h1 hw1 hw2 w2 tr h
      rw [FPEInteger.encryptLoopTr_cons] at h
      cases hbef : e.block_encrypt_func (if i = 0 then work.1 else work.2) r
          (if i = 0 then e.modulos1 else e.modulos0) with
      | none => rw [hbef] at h; simp at h
      | some temp =>
          rw [hbef] at h
          dsimp only at h
          cases hrec : e.encryptLoopTr rest
              (if i = 0 then (work.1, (work.2 + temp) % e.modulos1)
               else ((work.1 + temp) % e.modulos0, work.2)) (1 - i) with
          | none => rw [hrec] at h; simp at h
          | some p =>
              obtain ⟨w2t, trt⟩ := p
              rw [hrec] at h
              have hb1 : (if i = 0 then (work.1, (work.2 + temp) % e.modulos1)
                  else ((work.1 + temp) % e.modulos0, work.2)).1 < e.modulos0 := by
                split
                · exact hw1
                · exact Nat.mod_lt _ h0
              have hb2 : (if i = 0 then (work.1, (work.2 + temp) % e.modulos1)
                  else ((work.1 + temp) % e.modulos0, work.2)).2 < e.modulos1 := by
                split
                · exact Nat.mod_lt _ h1
                · exact hw2
              have hres := ih _ (1 - i) h0 h1 hb1 hb2 w2t trt hrec
              simp only [Option.some.injEq, Prod.mk.injEq] at h
              obtain ⟨hw, -⟩ := h
              subst hw
              exact hres

/-- Every state the decryption loop produces keeps both sub-block values below
their moduli. -/
theorem FPEInteger.decryptLoopTr_bounds (e : FPEInteger) :
    ∀ (rs : List Nat) (work : Nat × Nat) (i : Nat),
      0 < e.modulos0 → 0 < e.modulos1 →
      work.1 < e.modulos0 → work.2 < e.modulos1 →
      ∀ w2 tr, e.decryptLoopTr rs work i = some (w2, tr) →
        w2.1 < e.modulos0 ∧ w2.2 < e.modulos1 := by
  intro rs
  induction rs with
  | nil =>
      intro work i h0 h1 hw1 hw2 w2 tr h
      simp only [FPEInteger.decryptLoopTr, Option.some.injEq, Prod.mk.injEq] at h
      obtain ⟨hw, -⟩ := h
      subst hw
      exact ⟨hw1, hw2⟩
  | cons r rest ih =>
      intro work i h0 h1 hw1 hw2 w2 tr h
      rw [FPEInteger.decryptLoopTr_cons] at h
      cases hbef : e.block_encrypt_func (if i = 0 then work.1 else work.2) r
          (if i = 0 then e.modulos1 else e.modulos0) with
      | none => rw [hbef] at h; simp at h
      | some temp =>
          rw [hbef] at h
          dsimp only at h
          cases hrec : e.decryptLoopTr rest
              (if i = 0
               then (work.1, ((((if i = 0 then work.2 else work.1) : Nat) : Int) - (temp : Int))
                 % (((if i = 0 then e.modulos1 else e.modulos0) : Nat) : Int) |>.toNat)
               else (((((if i = 0 then work.2 else work.1) : Nat) : Int) - (temp : Int))
                 % (((if i = 0 then e.modulos1 else e.modulos0) : Nat) : Int) |>.toNat,
                 work.2)) (1 - i) with
          | none => rw [hrec] at h; simp at h
          | some p =>
              obtain ⟨w2t, trt⟩ := p
              rw [hrec] at h
              have hb1 : (if i = 0
                  then (work.1, ((((if i = 0 then work.2 else work.1) : Nat) : Int) - (temp : Int))
                    % (((if i = 0 then e.modulos1 else e.modulos0) : Nat) : Int) |>.toNat)
                  else (((((if i = 0 then work.2 else work.1) : Nat) : Int) - (temp : Int))
                    % (((if i = 0 then e.modulos1 else e.modulos0) : Nat) : Int) |>.toNat,
                    work.2)).1 < e.modulos0 := by
                by_cases hi : i = 0
                · simp only [hi, eq_self_iff_true, if_true]
                  exact hw1
                · simp only [if_neg hi]
                  exact toNat_emod_lt _ _ h0
              have hb2 : (if i = 0
                  then (work.1, ((((if i = 0 then work.2 else work.1) : Nat) : Int) - (temp : Int))
                    % (((if i = 0 then e.modulos1 else e.modulos0) : Nat) : Int) |>.toNat)
                  else (((((if i = 0 then work.2 else work.1) : Nat) : Int) - (temp : Int))
                    % (((if i = 0 then e.modulos1 else e.modulos0) : Nat) : Int) |>.toNat,
                    work.2)).2 < e.modulos1 := by
                by_cases hi : i = 0
                · simp only [hi, eq_self_iff_true, if_true]
                  exact toNat_emod_lt _ _ h1
                · simp only [if_neg hi]
                  exact hw2
              have hres := ih _ (1 - i) h0 h1 hb1 hb2 w2t trt hrec
              simp only [Option.some.injEq, Prod.mk.injEq] at h
              obtain ⟨hw, -⟩ := h
              subst hw
              exact hres

/-- The selected block-encryption function succeeds whenever both values to be
packed fit an unsigned 64-bit field. -/
theorem FPEInteger.block_encrypt_func_isSome (e : FPEInteger)
    (work_val round_num out_modulo : Nat)
    (hw : work_val < 2 ^ 64) (hr : round_num < 2 ^ 64) :
    ∃ t, e.block_encrypt_func work_val round_num out_modulo = some t := by
  have hcond : round_num < 2 ^ 64 ∧ work_val < 2 ^ 64 := ⟨hr, hw⟩
  simp only [FPEInteger.block_encrypt_func, FPEInteger.block_encrypt_func_small,
    FPEInteger.block_encrypt_func_large, packQQ, if_pos hcond]
  cases hu : e.useSmall <;> simp [hu]

/-- Splitting a decryption run at a list boundary: the second segment starts
from the state the first one produced, with the index flipped once per
processed round. -/
theorem FPEInteger.decryptLoopTr_append (e : FPEInteger) (l1 l2 : List Nat) :
    ∀ (w : Nat × Nat) (i : Nat), i < 2 →
      e.decryptLoopTr (l1 ++ l2) w i =
        match e.decryptLoopTr l1 w i with
        | none => none
        | some (w1, tr1) =>
          match e.decryptLoopTr l2 w1 (if l1.length % 2 = 0 then i else 1 - i) with
          | none => none
          | some (w2, tr2) => some (w2, tr1 ++ tr2) := by
  induction l1 with
  | nil =>
      intro w i hi
      simp only [List.nil_append, List.length_nil, Nat.zero_mod, if_pos rfl]
      cases hd : e.decryptLoopTr l2 w i with
      | none => simp [FPEInteger.decryptLoopTr, hd]
      | some p =>
          obtain ⟨w2, tr2⟩ := p
          simp [FPEInteger.decryptLoopTr, hd]
  | cons r rest ih =>
      intro w i hi
      have hcons : (r :: rest) ++ l2 = r :: (rest ++ l2) := rfl
      rw [hcons, FPEInteger.decryptLoopTr_cons, FPEInteger.decryptLoopTr_cons]
      cases hbef : e.block_encrypt_func (if i = 0 then w.1 else w.2) r
          (if i = 0 then e.modulos1 else e.modulos0) with
      | none => rfl
      | some temp =>
          dsimp only
          rw [ih _ (1 - i) (by omega)]
          have hidx : (if rest.length % 2 = 0 then 1 - i else 1 - (1 - i))
              = (if (r :: rest).length % 2 = 0 then i else 1 - i) := by
            simp only [List.length_cons]
            rcases Nat.mod_two_eq_zero_or_one rest.length with he | he
            · rw [if_pos he, if_neg (by omega : ¬ (rest.length + 1) % 2 = 0)]
            · rw [if_neg (by omega : ¬ rest.length % 2 = 0),
                if_pos (by omega : (rest.length + 1) % 2 = 0)]
              omega
          cases hd1 : e.decryptLoopTr rest
              (if i = 0
               then (w.1, ((((if i = 0 then w.2 else w.1) : Nat) : Int) - (temp : Int))
                 % (((if i = 0 then e.modulos1 else e.modulos0) : Nat) : Int) |>.toNat)
               else (((((if i = 0 then w.2 else w.1) : Nat) : Int) - (temp : Int))
                 % (((if i = 0 then e.modulos1 else e.modulos0) : Nat) : Int) |>.toNat,
                 w.2)) (1 - i) with
          | none => rfl
          | some p1 =>
              obtain ⟨w1, tr1⟩ := p1
              dsimp only
              rw [hidx]
              cases hd2 : e.decryptLoopTr l2 w1
                  (if (r :: rest).length % 2 = 0 then i else 1 - i) with
              | none => rfl
              | some p2 =>
                  obtain ⟨w2, tr2⟩ := p2
                  simp

/-- What a single decryption round does when the round function succeeds. -/
theorem FPEInteger.decryptLoopTr_single (e : FPEInteger) (r i : Nat) (w : Nat × Nat)
    (temp : Nat)
    (hbef : e.block_encrypt_func (if i = 0 then w.1 else w.2) r
      (if i = 0 then e.modulos1 else e.modulos0) = some temp) :
    e.decryptLoopTr [r] w i =
      some ((if i = 0 then (w.1, (((w.2 : Int) - (temp : Int)) % ((e.modulos1 : Nat) : Int)).toNat)
          else ((((w.1 : Int) - (temp : Int)) % ((e.modulos0 : Nat) : Int)).toNat, w.2)),
        [(if i = 0 then w.1 else w.2, r, if i = 0 then e.modulos1 else e.modulos0)]) := by
  by_cases hi0 : i = 0
  · subst hi0
    simp only [eq_self_iff_true, if_true] at hbef ⊢
    rw [FPEInteger.decryptLoopTr_cons]
    simp only [eq_self_iff_true, if_true, hbef]
    rfl
  · simp only [if_neg hi0] at hbef ⊢
    rw [FPEInteger.decryptLoopTr_cons]
    simp only [if_neg hi0, hbef]
    rfl

/-- A single decryption round at the same index, with the same round-function
output, undoes a single encryption round. -/
theorem FPEInteger.decryptLoopTr_single_undo (e : FPEInteger) (r i : Nat)
    (work : Nat × Nat) (temp : Nat) (hw1 : work.1 < e.modulos0) (hw2 : work.2 < e.modulos1)
    (hbef : e.block_encrypt_func (if i = 0 then work.1 else work.2) r
      (if i = 0 then e.modulos1 else e.modulos0) = some temp) :
    e.decryptLoopTr [r]
        (if i = 0 then (work.1, (work.2 + temp) % e.modulos1)
         else ((work.1 + temp) % e.modulos0, work.2)) i =
      some (work,
        [(if i = 0 then work.1 else work.2, r, if i = 0 then e.modulos1 else e.modulos0)]) := by
  by_cases hi0 : i = 0
  · subst hi0
    simp only [eq_self_iff_true, if_true] at hbef ⊢
    rw [e.decryptLoopTr_single r 0 (work.1, (work.2 + temp) % e.modulos1) temp
      (by simpa using hbef)]
    simp only [eq_self_iff_true, if_true]
    rw [dec_step_val work.2 temp e.modulos1 hw2]
  · simp only [if_neg hi0] at hbef ⊢
    rw [e.decryptLoopTr_single r i ((work.1 + temp) % e.modulos0, work.2) temp
      (by simp only [if_neg hi0]; simpa using hbef)]
    simp only [if_neg hi0]
    rw [dec_step_val work.1 temp e.modulos0 hw1]

/-- Feistel inversion, forward to backward: if the (instrumented) encryption
loop maps `work` to `w2` over the round list `rs`, then the decryption loop
over the reversed list, started at the index the forward pass held entering
its last round, maps `w2` back to `work` — and performs exactly the same
round-function calls, in reverse order. -/
theorem FPEInteger.loopTr_inverse (e : FPEInteger) :
    ∀ (rs : List Nat) (work : Nat × Nat) (i : Nat), i < 2 →
      0 < e.modulos0 → 0 < e.modulos1 →
      work.1 < e.modulos0 → work.2 < e.modulos1 →
      ∀ w2 tr, e.encryptLoopTr rs work i = some (w2, tr) →
        e.decryptLoopTr rs.reverse w2 ((i + rs.length + 1) % 2) = some (work, tr.reverse) := by
  intro rs
  induction rs with
  | nil =>
      intro work i hi h0 h1 hw1 hw2 w2 tr h
      simp only [FPEInteger.encryptLoopTr, Option.some.injEq, Prod.mk.injEq] at h
      obtain ⟨hw, ht⟩ := h
      subst hw
      subst ht
      rfl
  | cons r rest ih =>
      intro work i hi h0 h1 hw1 hw2 w2 tr h
      rw [FPEInteger.encryptLoopTr_cons] at h
      cases hbef : e.block_encrypt_func (if i = 0 then work.1 else work.2) r
          (if i = 0 then e.modulos1 else e.modulos0) with
      | none => rw [hbef] at h; simp at h
      | some temp =>
          rw [hbef] at h
          dsimp only at h
          cases hrec : e.encryptLoopTr rest
              (if i = 0 then (work.1, (work.2 + temp) % e.modulos1)
               else ((work.1 + temp) % e.modulos0, work.2)) (1 - i) with
          | none => rw [hrec] at h; simp at h
          | some p =>
              obtain ⟨w2t, trt⟩ := p
              rw [hrec] at h
              simp only [Option.some.injEq, Prod.mk.injEq] at h
              obtain ⟨hw, ht⟩ := h
              subst hw
              subst ht
              have hb1 : (if i = 0 then (work.1, (work.2 + temp) % e.modulos1)
                  else ((work.1 + temp) % e.modulos0, work.2)).1 < e.modulos0 := by
                split
                · exact hw1
                · exact Nat.mod_lt _ h0
              have hb2 : (if i = 0 then (work.1, (work.2 + temp) % e.modulos1)
                  else ((work.1 + temp) % e.modulos0, work.2)).2 < e.modulos1 := by
                split
                · exact Nat.mod_lt _ h1
                · exact hw2
              have hIH := ih (if i = 0 then (work.1, (work.2 + temp) % e.modulos1)
                  else ((work.1 + temp) % e.modulos0, work.2)) (1 - i) (by omega) h0 h1 hb1 hb2
                  w2t trt hrec
              have hrev : (r :: rest).reverse = rest.reverse ++ [r] := by simp
              rw [hrev]
              simp only [List.length_cons]
              rw [e.decryptLoopTr_append rest.reverse [r] w2t
                ((i + (rest.length + 1) + 1) % 2) (by omega)]
              have hidx1 : ((1 - i) + rest.length + 1) % 2 = (i + (rest.length + 1) + 1) % 2 := by
                omega
              rw [hidx1] at hIH
              rw [hIH]
              dsimp only
              have hidx2 : (if rest.reverse.length % 2 = 0 then (i + (rest.length + 1) + 1) % 2
                  else 1 - (i + (rest.length + 1) + 1) % 2) = i := by
                simp only [List.length_reverse]
                split_ifs <;> omega
              rw [hidx2]
              rw [e.decryptLoopTr_single_undo r i work temp hw1 hw2 hbef]
              simp

/-- Feistel inversion, backward to forward: if the (instrumented) decryption
loop over the reversed round list maps `wend` to `w`, then the encryption loop
over the round list maps `w` back to `wend`, performing the same
round-function calls in reverse order. -/
theorem FPEInteger.loopTr_inverse_rev (e : FPEInteger) :
    ∀ (rs : List Nat) (wend : Nat × Nat) (i : Nat), i < 2 →
      0 < e.modulos0 → 0 < e.modulos1 →
      wend.1 < e.modulos0 → wend.2 < e.modulos1 →
      ∀ w tr, e.decryptLoopTr rs.reverse wend ((i + rs.length + 1) % 2) = some (w, tr) →
        e.encryptLoopTr rs w i = some (wend, tr.reverse) := by
  intro rs
  induction rs with
  | nil =>
      intro wend i hi h0 h1 hw1 hw2 w tr h
      simp only [List.reverse_nil, FPEInteger.decryptLoopTr, Option.some.injEq,
        Prod.mk.injEq] at h
      obtain ⟨hw, ht⟩ := h
      subst hw
      subst ht
      rfl
  | cons r rest ih =>
      intro wend i hi h0 h1 hw1 hw2 w tr h
      have hrev : (r :: rest).reverse = rest.reverse ++ [r] := by simp
      rw [hrev] at h
      simp only [List.length_cons] at h
      rw [e.decryptLoopTr_append rest.reverse [r] wend
        ((i + (rest.length + 1) + 1) % 2) (by omega)] at h
      cases hd1 : e.decryptLoopTr rest.reverse wend ((i + (rest.length + 1) + 1) % 2) with
      | none => rw [hd1] at h; simp at h
      | some p1 =>
          obtain ⟨w1, tr1⟩ := p1
          rw [hd1] at h
          dsimp only at h
          have hidx2 : (if rest.reverse.length % 2 = 0 then (i + (rest.length + 1) + 1) % 2
              else 1 - (i + (rest.length + 1) + 1) % 2) = i := by
            simp only [List.length_reverse]
            split_ifs <;> omega
          rw [hidx2] at h
          cases hbef : e.block_encrypt_func (if i = 0 then w1.1 else w1.2) r
              (if i = 0 then e.modulos1 else e.modulos0) with
          | none =>
              rw [FPEInteger.decryptLoopTr_cons, hbef] at h
              simp at h
          | some temp =>
              rw [e.decryptLoopTr_single r i w1 temp hbef] at h
              dsimp only at h
              simp only [Option.some.injEq, Prod.mk.injEq] at h
              obtain ⟨hw, ht⟩ := h
              subst ht
              subst hw
              have hbw1 := e.decryptLoopTr_bounds rest.reverse wend
                ((i + (rest.length + 1) + 1) % 2) h0 h1 hw1 hw2 w1 tr1 hd1
              have hidx1 : ((1 - i) + rest.length + 1) % 2
                  = (i + (rest.length + 1) + 1) % 2 := by omega
              have hIH := ih wend (1 - i) (by omega) h0 h1 hw1 hw2 w1 tr1
                (by rw [hidx1]; exact hd1)
              rw [FPEInteger.encryptLoopTr_cons]
              by_cases hi0 : i = 0
              · subst hi0
                simp only [eq_self_iff_true, if_true] at hbef ⊢
                rw [hbef]
                dsimp only
                rw [enc_step_val w1.2 temp e.modulos1 hbw1.2]
                have hpair : (w1.1, w1.2) = w1 := rfl
                rw [hpair, hIH]
                simp
              · simp only [if_neg hi0] at hbef ⊢
                rw [hbef]
                dsimp only
                rw [enc_step_val w1.1 temp e.modulos0 hbw1.1]
                have hpair : (w1.1, w1.2) = w1 := rfl
                rw [hpair, hIH]
                simp

/-- Under the packing precondition (both moduli at most `2 ^ 64` and every
round number below `2 ^ 64`), the encryption loop never raises. -/
theorem FPEInteger.encryptLoopTr_total (e : FPEInteger) :
    ∀ (rs : List Nat) (work : Nat × Nat) (i : Nat),
      e.modulos0 ≤ 2 ^ 64 → e.modulos1 ≤ 2 ^ 64 →
      0 < e.modulos0 → 0 < e.modulos1 →
      (∀ r ∈ rs, r < 2 ^ 64) →
      work.1 < e.modulos0 → work.2 < e.modulos1 →
      ∃ res, e.encryptLoopTr rs work i = some res := by
  intro rs
  induction rs with
  | nil =>
      intro work i _ _ _ _ _ _ _
      exact ⟨(work, []), rfl⟩
  | cons r rest ih =>
      intro work i hM0 hM1 h0 h1 hrs hw1 hw2
      have hwf : (if i = 0 then work.1 else work.2) < 2 ^ 64 := by
        split
        · exact lt_of_lt_of_le hw1 hM0
        · exact lt_of_lt_of_le hw2 hM1
      obtain ⟨t, ht⟩ := e.block_encrypt_func_isSome (if i = 0 then work.1 else work.2) r
        (if i = 0 then e.modulos1 else e.modulos0) hwf (hrs r (by simp))
      rw [FPEInteger.encryptLoopTr_cons, ht]
      dsimp only
      have hb1 : (if i = 0 then (work.1, (work.2 + t) % e.modulos1)
          else ((work.1 + t) % e.modulos0, work.2)).1 < e.modulos0 := by
        split
        · exact hw1
        · exact Nat.mod_lt _ h0
      have hb2 : (if i = 0 then (work.1, (work.2 + t) % e.modulos1)
          else ((work.1 + t) % e.modulos0, work.2)).2 < e.modulos1 := by
        split
        · exact Nat.mod_lt _ h1
        · exact hw2
      obtain ⟨⟨w2, tr⟩, hres⟩ := ih (if i = 0 then (work.1, (work.2 + t) % e.modulos1)
          else ((work.1 + t) % e.modulos0, work.2)) (1 - i) hM0 hM1 h0 h1
          (fun x hx => hrs x (by simp [hx])) hb1 hb2
      rw [hres]
      exact ⟨_, rfl⟩

/-- Under the same packing precondition, the decryption loop never raises. -/
theorem FPEInteger.decryptLoopTr_total (e : FPEInteger) :
    ∀ (rs : List Nat) (work : Nat × Nat) (i : Nat),
      e.modulos0 ≤ 2 ^ 64 → e.modulos1 ≤ 2 ^ 64 →
      0 < e.modulos0 → 0 < e.modulos1 →
      (∀ r ∈ rs, r < 2 ^ 64) →
      work.1 < e.modulos0 → work.2 < e.modulos1 →
      ∃ res, e.decryptLoopTr rs work i = some res := by
  intro rs
  induction rs with
  | nil =>
      intro work i _ _ _ _ _ _ _
      exact ⟨(work, []), rfl⟩
  | cons r rest ih =>
      intro work i hM0 hM1 h0 h1 hrs hw1 hw2
      have hwf : (if i = 0 then work.1 else work.2) < 2 ^ 64 := by
        split
        · exact lt_of_lt_of_le hw1 hM0
        · exact lt_of_lt_of_le hw2 hM1
      obtain ⟨t, ht⟩ := e.block_encrypt_func_isSome (if i = 0 then work.1 else work.2) r
        (if i = 0 then e.modulos1 else e.modulos0) hwf (hrs r (by simp))
      rw [FPEInteger.decryptLoopTr_cons, ht]
      dsimp only
      have hb1 : (if i = 0
          then (work.1, ((((if i = 0 then work.2 else work.1) : Nat) : Int) - (t : Int))
            % (((if i = 0 then e.modulos1 else e.modulos0) : Nat) : Int) |>.toNat)
          else (((((if i = 0 then work.2 else work.1) : Nat) : Int) - (t : Int))
            % (((if i = 0 then e.modulos1 else e.modulos0) : Nat) : Int) |>.toNat,
            work.2)).1 < e.modulos0 := by
        by_cases hi0 : i = 0
        · simp only [hi0, eq_self_iff_true, if_true]
          exact hw1
        · simp only [if_neg hi0]
          exact toNat_emod_lt _ _ h0
      have hb2 : (if i = 0
          then (work.1, ((((if i = 0 then work.2 else work.1) : Nat) : Int) - (t : Int))
            % (((if i = 0 then e.modulos1 else e.modulos0) : Nat) : Int) |>.toNat)
          else (((((if i = 0 then work.2 else work.1) : Nat) : Int) - (t : Int))
            % (((if i = 0 then e.modulos1 else e.modulos0) : Nat) : Int) |>.toNat,
            work.2)).2 < e.modulos1 := by
        by_cases hi0 : i = 0
        · simp only [hi0, eq_self_iff_true, if_true]
          exact toNat_emod_lt _ _ h1
        · simp only [if_neg hi0]
          exact hw2
      obtain ⟨⟨w2, tr⟩, hres⟩ := ih (if i = 0
          then (work.1, ((((if i = 0 then work.2 else work.1) : Nat) : Int) - (t : Int))
            % (((if i = 0 then e.modulos1 else e.modulos0) : Nat) : Int) |>.toNat)
          else (((((if i = 0 then work.2 else work.1) : Nat) : Int) - (t : Int))
            % (((if i = 0 then e.modulos1 else e.modulos0) : Nat) : Int) |>.toNat,
            work.2)) (1 - i) hM0 hM1 h0 h1
          (fun x hx => hrs x (by simp [hx])) hb1 hb2
      rw [hres]
      exact ⟨_, rfl⟩

/-- The two derived moduli always multiply to the domain size, because the two
`part_widths` sum to `width`. -/
theorem FPEInteger.init_modulos_mul (aes : Nat → Nat) (rounds radix width : Nat) :
    (FPEInteger.init aes rounds radix width).modulos0
        * (FPEInteger.init aes rounds radix width).modulos1
      = (FPEInteger.init aes rounds radix width).block_size := by
  show radix ^ ((width + 1) / 2) * radix ^ (width / 2) = radix ^ width
  rw [← pow_add]
  congr 1
  omega

/-- Joining the two sub-block values of an in-range message restores it. -/
theorem FPEInteger.join_split (e : FPEInteger) (hmul : e.modulos0 * e.modulos1 = e.block_size)
    (message : Nat) (hm : message < e.block_size) :
    e.join_message (e.split_message message) = message := by
  rw [← hmul] at hm
  have h0 : 0 < e.modulos0 := by
    rcases Nat.eq_zero_or_pos e.modulos0 with h | h
    · rw [h, Nat.zero_mul] at hm
      omega
    · exact h
  have hdiv : message / e.modulos0 < e.modulos1 :=
    (Nat.div_lt_iff_lt_mul h0).mpr (by rw [Nat.mul_comm] at hm; exact hm)
  show message / e.modulos0 % e.modulos1 * e.modulos0 + message % e.modulos0 = message
  rw [Nat.mod_eq_of_lt hdiv, Nat.mul_comm]
  rw [Nat.div_add_mod]

/-- Splitting a joined in-range pair restores it. -/
theorem FPEInteger.split_join (e : FPEInteger) (w : Nat × Nat)
    (hw1 : w.1 < e.modulos0) (hw2 : w.2 < e.modulos1) :
    e.split_message (e.join_message w) = w := by
  have h0 : 0 < e.modulos0 := lt_of_le_of_lt (Nat.zero_le _) hw1
  show ((w.2 * e.modulos0 + w.1) % e.modulos0,
    (w.2 * e.modulos0 + w.1) / e.modulos0 % e.modulos1) = w
  rw [Nat.mul_comm w.2 e.modulos0, Nat.mul_add_mod, Nat.mod_eq_of_lt hw1,
    Nat.mul_add_div h0, Nat.div_eq_of_lt hw1, Nat.add_zero, Nat.mod_eq_of_lt hw2]

/-- Splitting only depends on the message modulo the domain size. -/
theorem FPEInteger.split_message_mod (e : FPEInteger)
    (hmul : e.modulos0 * e.modulos1 = e.block_size) (message : Nat) :
    e.split_message (message % e.block_size) = e.split_message message := by
  rw [← hmul]
  show (message % (e.modulos0 * e.modulos1) % e.modulos0,
      message % (e.modulos0 * e.modulos1) / e.modulos0 % e.modulos1)
    = (message % e.modulos0, message / e.modulos0 % e.modulos1)
  rw [Nat.mod_mod_of_dvd message (Dvd.intro_left e.modulos1 (Nat.mul_comm _ _))]
  rw [Nat.mod_mul_right_div_self, Nat.mod_mod_of_dvd _ dvd_rfl]

/-- Rewriting `encrypt` through the instrumented loop. -/
theorem FPEInteger.encrypt_eq (e : FPEInteger) (message : Nat) :
    e.encrypt message =
      (e.encryptLoopTr (List.range e.rounds) (e.split_message message) 0).map
        (fun p => e.join_message p.1) := by
  rw [FPEInteger.encrypt, ← e.encryptLoopTr_fst]
  cases e.encryptLoopTr (List.range e.rounds) (e.split_message message) 0 <;> rfl

/-- Rewriting `decrypt` through the instrumented loop, with the starting index rewritten
from Python floor-mod form to `(rounds + 1) % 2`. -/
theorem FPEInteger.decrypt_eq (e : FPEInteger) (message : Nat) :
    e.decrypt message =
      (e.decryptLoopTr (List.range e.rounds).reverse (e.split_message message)
        ((e.rounds + 1) % 2)).map (fun p => e.join_message p.1) := by
  rw [FPEInteger.decrypt, decryptIdx_eq, ← e.decryptLoopTr_fst]
  cases e.decryptLoopTr (List.range e.rounds).reverse (e.split_message message)
    ((e.rounds + 1) % 2) <;> rfl

/-- Joining an in-range pair lands inside the domain. -/
theorem FPEInteger.join_message_lt (e : FPEInteger)
    (hmul : e.modulos0 * e.modulos1 = e.block_size) (w : Nat × Nat)
    (hw1 : w.1 < e.modulos0) (hw2 : w.2 < e.modulos1) :
    e.join_message w < e.block_size := by
  rw [← hmul]
  show w.2 * e.modulos0 + w.1 < e.modulos0 * e.modulos1
  calc w.2 * e.modulos0 + w.1 < w.2 * e.modulos0 + e.modulos0 := by omega
    _ = (w.2 + 1) * e.modulos0 := by ring
    _ ≤ e.modulos1 * e.modulos0 := Nat.mul_le_mul_right _ (Nat.succ_le_of_lt hw2)
    _ = e.modulos0 * e.modulos1 := Nat.mul_comm _ _

/-- C1 (counterexample): a constructed engine with `rounds = 1`, `radix = 2`,
`width = 130` raises `struct.error` inside `encrypt` on the in-range message
`2 ^ 64` (the sub-block value does not fit the `"<QQ"` 64-bit pack field), so
`decrypt(encrypt(message)) == message` fails as literally stated.  The failure
happens before the cipher is consulted, hence for every key. -/
theorem roundtrip_counterexample :
    2 ^ 64 < (FPEInteger.init (fun b => b) 1 2 130).block_size ∧
    (FPEInteger.init (fun b => b) 1 2 130).encrypt (2 ^ 64) = none := by
  constructor
  · decide
  · decide

/-- C1 (amended): under the packing precondition — `modulos[0] ≤ 2 ^ 64`
(which also bounds `modulos[1]`) and `rounds ≤ 2 ^ 64` — encryption and
decryption are total on `[0, block_size)` and are mutual inverses:
`decrypt(encrypt(message)) = message` and `encrypt(decrypt(message)) = message`. -/
theorem encrypt_decrypt_roundtrip (aes : Nat → Nat) (rounds radix width message : Nat)
    (hradix : 2 ≤ radix) (hwidth : 1 ≤ width) (hrounds : 1 ≤ rounds)
    (hM : radix ^ ((width + 1) / 2) ≤ 2 ^ 64) (hR : rounds ≤ 2 ^ 64)
    (hm : message < (FPEInteger.init aes rounds radix width).block_size) :
    (∃ c, (FPEInteger.init aes rounds radix width).encrypt message = some c ∧
          (FPEInteger.init aes rounds radix width).decrypt c = some message) ∧
    (∃ p, (FPEInteger.init aes rounds radix width).decrypt message = some p ∧
          (FPEInteger.init aes rounds radix width).encrypt p = some message) := by
  set e := FPEInteger.init aes rounds radix width with hedef
  have hmul : e.modulos0 * e.modulos1 = e.block_size :=
    FPEInteger.init_modulos_mul aes rounds radix width
  have h0 : 0 < e.modulos0 := pow_pos (by omega) _
  have h1 : 0 < e.modulos1 := pow_pos (by omega) _
  have hM0 : e.modulos0 ≤ 2 ^ 64 := hM
  have hM1 : e.modulos1 ≤ 2 ^ 64 :=
    le_trans (Nat.pow_le_pow_right (by omega) (by omega)) hM
  have hs1 : (e.split_message message).1 < e.modulos0 := Nat.mod_lt _ h0
  have hs2 : (e.split_message message).2 < e.modulos1 := Nat.mod_lt _ h1
  have hrr : e.rounds = rounds := rfl
  have hrlist : ∀ r ∈ List.range e.rounds, r < 2 ^ 64 := by
    intro r hr
    have hlt := List.mem_range.mp hr
    rw [hrr] at hlt
    omega
  have hlen : (0 + (List.range e.rounds).length + 1) % 2 = (e.rounds + 1) % 2 := by
    simp [List.length_range]
  constructor
  · obtain ⟨⟨w2, tr⟩, henc⟩ := e.encryptLoopTr_total (List.range e.rounds)
      (e.split_message message) 0 hM0 hM1 h0 h1 hrlist hs1 hs2
    refine ⟨e.join_message w2, ?_, ?_⟩
    · rw [FPEInteger.encrypt_eq, henc]
      rfl
    · have hbnd := e.encryptLoopTr_bounds (List.range e.rounds) (e.split_message message)
        0 h0 h1 hs1 hs2 w2 tr henc
      have hinv := e.loopTr_inverse (List.range e.rounds) (e.split_message message) 0
        (by omega) h0 h1 hs1 hs2 w2 tr henc
      rw [hlen] at hinv
      rw [FPEInteger.decrypt_eq, e.split_join w2 hbnd.1 hbnd.2, hinv]
      show some (e.join_message (e.split_message message)) = some message
      rw [e.join_split hmul message hm]
  · obtain ⟨⟨p0, tr2⟩, hdec⟩ := e.decryptLoopTr_total (List.range e.rounds).reverse
      (e.split_message message) ((e.rounds + 1) % 2) hM0 hM1 h0 h1
      (fun r hr => hrlist r (List.mem_reverse.mp hr)) hs1 hs2
    refine ⟨e.join_message p0, ?_, ?_⟩
    · rw [FPEInteger.decrypt_eq, hdec]
      rfl
    · have hbnd := e.decryptLoopTr_bounds (List.range e.rounds).reverse
        (e.split_message message) ((e.rounds + 1) % 2) h0 h1 hs1 hs2 p0 tr2 hdec
      have hinv := e.loopTr_inverse_rev (List.range e.rounds) (e.split_message message) 0
        (by omega) h0 h1 hs1 hs2 p0 tr2 (by rw [hlen]; exact hdec)
      rw [FPEInteger.encrypt_eq, e.split_join p0 hbnd.1 hbnd.2, hinv]
      show some (e.join_message (e.split_message message)) = some message
      rw [e.join_split hmul message hm]

/-- C1 witness: concrete engine `rounds = 3`, `radix = 2`, `width = 4`,
message `5`. -/
theorem encrypt_decrypt_roundtrip_witness :
    (2 ≤ 2 ∧ 1 ≤ 4 ∧ 1 ≤ 3 ∧ 2 ^ ((4 + 1) / 2) ≤ 2 ^ 64 ∧ 3 ≤ 2 ^ 64 ∧
      5 < (FPEInteger.init (fun b => b) 3 2 4).block_size) ∧
    ((∃ c, (FPEInteger.init (fun b => b) 3 2 4).encrypt 5 = some c ∧
          (FPEInteger.init (fun b => b) 3 2 4).decrypt c = some 5) ∧
     (∃ p, (FPEInteger.init (fun b => b) 3 2 4).decrypt 5 = some p ∧
          (FPEInteger.init (fun b => b) 3 2 4).encrypt p = some 5)) :=
  ⟨⟨by decide, by decide, by decide, by decide, by decide, by decide⟩,
    encrypt_decrypt_roundtrip (fun b => b) 3 2 4 5 (by decide) (by decide) (by decide)
      (by decide) (by decide) (by decide)⟩

/-- C2: for a fixed engine, whenever two distinct in-range messages both
produce ciphertexts, the ciphertexts differ — `encrypt` is injective (hence a
permutation) over `[0, block_size)`, for every round count including the edge
cases `width = 1`, `rounds = 1`, `radix = 2`. -/
theorem encrypt_injective (aes : Nat → Nat) (rounds radix width : Nat) (hradix : 2 ≤ radix)
    (a b ca cb : Nat)
    (ha : a < (FPEInteger.init aes rounds radix width).block_size)
    (hb : b < (FPEInteger.init aes rounds radix width).block_size)
    (hab : a ≠ b)
    (hca : (FPEInteger.init aes rounds radix width).encrypt a = some ca)
    (hcb : (FPEInteger.init aes rounds radix width).encrypt b = some cb) :
    ca ≠ cb := by
  set e := FPEInteger.init aes rounds radix width with hedef
  have hmul : e.modulos0 * e.modulos1 = e.block_size :=
    FPEInteger.init_modulos_mul aes rounds radix width
  have h0 : 0 < e.modulos0 := pow_pos (by omega) _
  have h1 : 0 < e.modulos1 := pow_pos (by omega) _
  have hsa1 : (e.split_message a).1 < e.modulos0 := Nat.mod_lt _ h0
  have hsa2 : (e.split_message a).2 < e.modulos1 := Nat.mod_lt _ h1
  have hsb1 : (e.split_message b).1 < e.modulos0 := Nat.mod_lt _ h0
  have hsb2 : (e.split_message b).2 < e.modulos1 := Nat.mod_lt _ h1
  intro hcc
  rw [FPEInteger.encrypt_eq] at hca hcb
  cases hta : e.encryptLoopTr (List.range e.rounds) (e.split_message a) 0 with
  | none => rw [hta] at hca; simp at hca
  | some pa =>
      obtain ⟨wa, tra⟩ := pa
      rw [hta] at hca
      simp at hca
      cases htb : e.encryptLoopTr (List.range e.rounds) (e.split_message b) 0 with
      | none => rw [htb] at hcb; simp at hcb
      | some pb =>
          obtain ⟨wb, trb⟩ := pb
          rw [htb] at hcb
          simp at hcb
          have hba := e.encryptLoopTr_bounds (List.range e.rounds) (e.split_message a) 0
            h0 h1 hsa1 hsa2 wa tra hta
          have hbb := e.encryptLoopTr_bounds (List.range e.rounds) (e.split_message b) 0
            h0 h1 hsb1 hsb2 wb trb htb
          have hww : wa = wb := by
            have h1a := e.split_join wa hba.1 hba.2
            have h1b := e.split_join wb hbb.1 hbb.2
            rw [← h1a, ← h1b]
            rw [hca, hcb, hcc]
          subst hww
          have hinva := e.loopTr_inverse (List.range e.rounds) (e.split_message a) 0
            (by omega) h0 h1 hsa1 hsa2 wa tra hta
          have hinvb := e.loopTr_inverse (List.range e.rounds) (e.split_message b) 0
            (by omega) h0 h1 hsb1 hsb2 wa trb htb
          rw [hinva] at hinvb
          simp only [Option.some.injEq, Prod.mk.injEq] at hinvb
          have hsab : e.split_message a = e.split_message b := hinvb.1
          have : a = b := by
            rw [← e.join_split hmul a ha, ← e.join_split hmul b hb, hsab]
          exact hab this

/-- C2 witness: with the all-zero cipher model the engine `rounds = 1`,
`radix = 2`, `width = 1` encrypts `0` and `1` to distinct values. -/
theorem encrypt_injective_witness :
    (2 ≤ 2 ∧ 0 < (FPEInteger.init (fun _ => 0) 1 2 1).block_size ∧
      1 < (FPEInteger.init (fun _ => 0) 1 2 1).block_size ∧
      (FPEInteger.init (fun _ => 0) 1 2 1).encrypt 0 = some 0 ∧
      (FPEInteger.init (fun _ => 0) 1 2 1).encrypt 1 = some 1) ∧
    (0 : Nat) ≠ (1 : Nat) :=
  ⟨⟨by decide, by decide, by decide, by decide, by decide⟩,
    encrypt_injective (fun _ => 0) 1 2 1 (by decide) 0 1 0 1 (by decide) (by decide)
      (by decide) (by decide) (by decide)⟩

/-- C3 (counterexample): the out-of-range message `4 = block_size` of a
radix-2 width-2 engine is not rejected with any error: `encrypt` returns a
value, equal to the encryption of `4 % block_size = 0`, and so does
`decrypt`. -/
theorem out_of_range_counterexample :
    (FPEInteger.init (fun _ => 0) 1 2 2).block_size = 4 ∧
    (FPEInteger.init (fun _ => 0) 1 2 2).encrypt 4 = some 0 ∧
    (FPEInteger.init (fun _ => 0) 1 2 2).encrypt 4
      = (FPEInteger.init (fun _ => 0) 1 2 2).encrypt 0 ∧
    (FPEInteger.init (fun _ => 0) 1 2 2).decrypt 4 = some 0 := by
  refine ⟨by decide, by decide, by decide, by decide⟩

/-- C3 (amended): no `OutOfRange` rejection exists — an out-of-range message
is silently wrapped: `split_message` reduces it into the domain, so `encrypt`
and `decrypt` coincide with the calls on `message % block_size`. -/
theorem out_of_range_wraps (aes : Nat → Nat) (rounds radix width message : Nat) :
    (FPEInteger.init aes rounds radix width).split_message message
      = (FPEInteger.init aes rounds radix width).split_message
          (message % (FPEInteger.init aes rounds radix width).block_size) ∧
    (FPEInteger.init aes rounds radix width).encrypt message
      = (FPEInteger.init aes rounds radix width).encrypt
          (message % (FPEInteger.init aes rounds radix width).block_size) ∧
    (FPEInteger.init aes rounds radix width).decrypt message
      = (FPEInteger.init aes rounds radix width).decrypt
          (message % (FPEInteger.init aes rounds radix width).block_size) := by
  have hsplit := (FPEInteger.init aes rounds radix width).split_message_mod
    (FPEInteger.init_modulos_mul aes rounds radix width) message
  refine ⟨hsplit.symm, ?_, ?_⟩
  · rw [FPEInteger.encrypt, FPEInteger.encrypt, hsplit]
  · rw [FPEInteger.decrypt, FPEInteger.decrypt, hsplit]

/-- C4: `split_message` and `join_message` are exact inverses on the valid
domain, with the documented mixed-radix decomposition and recombination
formulas. -/
theorem split_join_exact_inverses (aes : Nat → Nat) (rounds radix width message : Nat)
    (hm : message < (FPEInteger.init aes rounds radix width).block_size) :
    (FPEInteger.init aes rounds radix width).join_message
        ((FPEInteger.init aes rounds radix width).split_message message) = message ∧
    (FPEInteger.init aes rounds radix width).split_message message
      = (message % (FPEInteger.init aes rounds radix width).modulos0,
          message / (FPEInteger.init aes rounds radix width).modulos0
            % (FPEInteger.init aes rounds radix width).modulos1) ∧
    (∀ w : Nat × Nat, (FPEInteger.init aes rounds radix width).join_message w
      = w.2 * (FPEInteger.init aes rounds radix width).modulos0 + w.1) :=
  ⟨(FPEInteger.init aes rounds radix width).join_split
      (FPEInteger.init_modulos_mul aes rounds radix width) message hm,
    rfl, fun _ => rfl⟩

/-- C4 witness: concrete engine `radix = 10`, `width = 3`, message `123`. -/
theorem split_join_exact_inverses_witness :
    123 < (FPEInteger.init (fun _ => 0) 10 10 3).block_size ∧
    ((FPEInteger.init (fun _ => 0) 10 10 3).join_message
        ((FPEInteger.init (fun _ => 0) 10 10 3).split_message 123) = 123 ∧
     (FPEInteger.init (fun _ => 0) 10 10 3).split_message 123
       = (123 % (FPEInteger.init (fun _ => 0) 10 10 3).modulos0,
           123 / (FPEInteger.init (fun _ => 0) 10 10 3).modulos0
             % (FPEInteger.init (fun _ => 0) 10 10 3).modulos1) ∧
     (∀ w : Nat × Nat, (FPEInteger.init (fun _ => 0) 10 10 3).join_message w
       = w.2 * (FPEInteger.init (fun _ => 0) 10 10 3).modulos0 + w.1)) :=
  ⟨by decide, split_join_exact_inverses (fun _ => 0) 10 10 3 123 (by decide)⟩

/-- C5: `decrypt` starts from the index pair the forward pass held entering
its last round (`from_idx = (rounds - 1) mod 2`, `to_idx = rounds mod 2`), and
in each descending round it passes to the round function exactly the value,
round number and modulus the matching forward round used: the decryption
call trace is the reverse of the encryption call trace, and the original
state is restored. -/
theorem decrypt_mirrors_encrypt (e : FPEInteger) (h0 : 0 < e.modulos0)
    (h1 : 0 < e.modulos1) (message : Nat) (w2 : Nat × Nat) (tr : List (Nat × Nat × Nat))
    (henc : e.encryptLoopTr (List.range e.rounds) (e.split_message message) 0
      = some (w2, tr)) :
    e.decryptLoopTr (List.range e.rounds).reverse w2 ((((e.rounds : Int) - 1) % 2).toNat)
        = some (e.split_message message, tr.reverse) ∧
    (1 ≤ e.rounds →
      (((e.rounds : Int) - 1) % 2).toNat = (e.rounds - 1) % 2 ∧
      1 - (((e.rounds : Int) - 1) % 2).toNat = e.rounds % 2) := by
  constructor
  · have hs1 : (e.split_message message).1 < e.modulos0 := Nat.mod_lt _ h0
    have hs2 : (e.split_message message).2 < e.modulos1 := Nat.mod_lt _ h1
    have hinv := e.loopTr_inverse (List.range e.rounds) (e.split_message message) 0
      (by omega) h0 h1 hs1 hs2 w2 tr henc
    have hidx : (0 + (List.range e.rounds).length + 1) % 2
        = (((e.rounds : Int) - 1) % 2).toNat := by
      rw [decryptIdx_eq]
      simp [List.length_range]
    rw [hidx] at hinv
    exact hinv
  · intro hr
    constructor <;> omega

/-- C5 witness: the `rounds = 2`, `radix = 2`, `width = 2` engine with the
all-zero cipher model, message `1`. -/
theorem decrypt_mirrors_encrypt_witness :
    (0 < (FPEInteger.init (fun _ => 0) 2 2 2).modulos0 ∧
     0 < (FPEInteger.init (fun _ => 0) 2 2 2).modulos1 ∧
     (FPEInteger.init (fun _ => 0) 2 2 2).encryptLoopTr
        (List.range (FPEInteger.init (fun _ => 0) 2 2 2).rounds)
        ((FPEInteger.init (fun _ => 0) 2 2 2).split_message 1) 0
       = some ((1, 0), [(1, 0, 2), (0, 1, 2)])) ∧
    ((FPEInteger.init (fun _ => 0) 2 2 2).decryptLoopTr
        (List.range (FPEInteger.init (fun _ => 0) 2 2 2).rounds).reverse (1, 0)
        (((((FPEInteger.init (fun _ => 0) 2 2 2).rounds : Int) - 1) % 2).toNat)
      = some ((FPEInteger.init (fun _ => 0) 2 2 2).split_message 1,
          [(1, 0, 2), (0, 1, 2)].reverse) ∧
     (1 ≤ (FPEInteger.init (fun _ => 0) 2 2 2).rounds →
       ((((FPEInteger.init (fun _ => 0) 2 2 2).rounds : Int) - 1) % 2).toNat
         = ((FPEInteger.init (fun _ => 0) 2 2 2).rounds - 1) % 2 ∧
       1 - ((((FPEInteger.init (fun _ => 0) 2 2 2).rounds : Int) - 1) % 2).toNat
         = (FPEInteger.init (fun _ => 0) 2 2 2).rounds % 2)) :=
  ⟨⟨by decide, by decide, by decide⟩,
    decrypt_mirrors_encrypt (FPEInteger.init (fun _ => 0) 2 2 2) (by decide) (by decide)
      1 (1, 0) [(1, 0, 2), (0, 1, 2)] (by decide)⟩

/-- C6: after construction the derived parameters satisfy
`part_widths = [ceil(width / 2), floor(width / 2)]` (the two widths partition
`width`, the low part getting the extra digit), `modulos[i] = radix ^
part_widths[i]`, `block_size = radix ^ width`, and the invariant
`modulos[0] * modulos[1] = block_size`; the engine record is immutable, so the
values never change. -/
theorem init_derived_parameters (aes : Nat → Nat) (rounds radix width : Nat)
    (hradix : 2 ≤ radix) (hwidth : 1 ≤ width) :
    (FPEInteger.init aes rounds radix width).modulos0 = radix ^ ((width + 1) / 2) ∧
    (FPEInteger.init aes rounds radix width).modulos1 = radix ^ (width / 2) ∧
    (width + 1) / 2 + width / 2 = width ∧
    width / 2 ≤ (width + 1) / 2 ∧
    (FPEInteger.init aes rounds radix width).block_size = radix ^ width ∧
    (FPEInteger.init aes rounds radix width).modulos0
        * (FPEInteger.init aes rounds radix width).modulos1
      = (FPEInteger.init aes rounds radix width).block_size :=
  ⟨rfl, rfl, by omega, by omega, rfl, FPEInteger.init_modulos_mul aes rounds radix width⟩

/-- C6 witness: the demo parameters `radix = 10`, `width = 7`. -/
theorem init_derived_parameters_witness :
    (2 ≤ 10 ∧ 1 ≤ 7) ∧
    ((FPEInteger.init (fun _ => 0) 10 10 7).modulos0 = 10 ^ ((7 + 1) / 2) ∧
     (FPEInteger.init (fun _ => 0) 10 10 7).modulos1 = 10 ^ (7 / 2) ∧
     (7 + 1) / 2 + 7 / 2 = 7 ∧
     7 / 2 ≤ (7 + 1) / 2 ∧
     (FPEInteger.init (fun _ => 0) 10 10 7).block_size = 10 ^ 7 ∧
     (FPEInteger.init (fun _ => 0) 10 10 7).modulos0
         * (FPEInteger.init (fun _ => 0) 10 10 7).modulos1
       = (FPEInteger.init (fun _ => 0) 10 10 7).block_size) :=
  ⟨⟨by decide, by decide⟩,
    init_derived_parameters (fun _ => 0) 10 10 7 (by decide) (by decide)⟩

/-- C7: any value `encrypt` or `decrypt` returns for an in-range message lies
in `[0, block_size)` (being a `Nat`, it is never negative). -/
theorem encrypt_decrypt_range_preservation (aes : Nat → Nat)
    (rounds radix width message : Nat) (hradix : 2 ≤ radix)
    (hm : message < (FPEInteger.init aes rounds radix width).block_size) :
    (∀ c, (FPEInteger.init aes rounds radix width).encrypt message = some c
       → c < (FPEInteger.init aes rounds radix width).block_size) ∧
    (∀ p, (FPEInteger.init aes rounds radix width).decrypt message = some p
       → p < (FPEInteger.init aes rounds radix width).block_size) := by
  set e := FPEInteger.init aes rounds radix width with hedef
  have hmul : e.modulos0 * e.modulos1 = e.block_size :=
    FPEInteger.init_modulos_mul aes rounds radix width
  have h0 : 0 < e.modulos0 := pow_pos (by omega) _
  have h1 : 0 < e.modulos1 := pow_pos (by omega) _
  have hs1 : (e.split_message message).1 < e.modulos0 := Nat.mod_lt _ h0
  have hs2 : (e.split_message message).2 < e.modulos1 := Nat.mod_lt _ h1
  constructor
  · intro c hc
    rw [FPEInteger.encrypt_eq] at hc
    cases hta : e.encryptLoopTr (List.range e.rounds) (e.split_message message) 0 with
    | none => rw [hta] at hc; simp at hc
    | some p =>
        obtain ⟨w2, tr⟩ := p
        rw [hta] at hc
        simp at hc
        have hbnd := e.encryptLoopTr_bounds (List.range e.rounds) (e.split_message message)
          0 h0 h1 hs1 hs2 w2 tr hta
        rw [← hc]
        exact e.join_message_lt hmul w2 hbnd.1 hbnd.2
  · intro p hp
    rw [FPEInteger.decrypt_eq] at hp
    cases hta : e.decryptLoopTr (List.range e.rounds).reverse (e.split_message message)
        ((e.rounds + 1) % 2) with
    | none => rw [hta] at hp; simp at hp
    | some q =>
        obtain ⟨w2, tr⟩ := q
        rw [hta] at hp
        simp at hp
        have hbnd := e.decryptLoopTr_bounds (List.range e.rounds).reverse
          (e.split_message message) ((e.rounds + 1) % 2) h0 h1 hs1 hs2 w2 tr hta
        rw [← hp]
        exact e.join_message_lt hmul w2 hbnd.1 hbnd.2

/-- C7 witness: `rounds = 3`, `radix = 2`, `width = 4`, message `7`. -/
theorem encrypt_decrypt_range_preservation_witness :
    (2 ≤ 2 ∧ 7 < (FPEInteger.init (fun _ => 0) 3 2 4).block_size) ∧
    ((∀ c, (FPEInteger.init (fun _ => 0) 3 2 4).encrypt 7 = some c
        → c < (FPEInteger.init (fun _ => 0) 3 2 4).block_size) ∧
     (∀ p, (FPEInteger.init (fun _ => 0) 3 2 4).decrypt 7 = some p
        → p < (FPEInteger.init (fun _ => 0) 3 2 4).block_size)) :=
  ⟨⟨by decide, by decide⟩,
    encrypt_decrypt_range_preservation (fun _ => 0) 3 2 4 7 (by decide) (by decide)⟩

/-- C8: for every nonnegative message — including those at or above
`block_size` — `split_message` silently reduces it into the domain, so
`encrypt(message) = encrypt(message % block_size)` and
`decrypt(message) = decrypt(message % block_size)`. -/
theorem encrypt_decrypt_mod_block_size (aes : Nat → Nat)
    (rounds radix width message : Nat) :
    (FPEInteger.init aes rounds radix width).encrypt message
      = (FPEInteger.init aes rounds radix width).encrypt
          (message % (FPEInteger.init aes rounds radix width).block_size) ∧
    (FPEInteger.init aes rounds radix width).decrypt message
      = (FPEInteger.init aes rounds radix width).decrypt
          (message % (FPEInteger.init aes rounds radix width).block_size) := by
  have hsplit := (FPEInteger.init aes rounds radix width).split_message_mod
    (FPEInteger.init_modulos_mul aes rounds radix width) message
  constructor
  · rw [FPEInteger.encrypt, FPEInteger.encrypt, hsplit]
  · rw [FPEInteger.decrypt, FPEInteger.decrypt, hsplit]

/-- C9: with `rounds = 0` both round loops run zero iterations, so `encrypt`
and `decrypt` both return `join_message(split_message(message)) = message` on
the whole domain. -/
theorem rounds_zero_identity (aes : Nat → Nat) (radix width message : Nat)
    (hm : message < (FPEInteger.init aes 0 radix width).block_size) :
    (FPEInteger.init aes 0 radix width).encrypt message = some message ∧
    (FPEInteger.init aes 0 radix width).decrypt message = some message := by
  have hjs := (FPEInteger.init aes 0 radix width).join_split
    (FPEInteger.init_modulos_mul aes 0 radix width) message hm
  constructor
  · show some ((FPEInteger.init aes 0 radix width).join_message
        ((FPEInteger.init aes 0 radix width).split_message message)) = some message
    rw [hjs]
  · show some ((FPEInteger.init aes 0 radix width).join_message
        ((FPEInteger.init aes 0 radix width).split_message message)) = some message
    rw [hjs]

/-- C9 witness: `radix = 2`, `width = 2`, message `3`. -/
theorem rounds_zero_identity_witness :
    3 < (FPEInteger.init (fun _ => 0) 0 2 2).block_size ∧
    ((FPEInteger.init (fun _ => 0) 0 2 2).encrypt 3 = some 3 ∧
     (FPEInteger.init (fun _ => 0) 0 2 2).decrypt 3 = some 3) :=
  ⟨by decide, rounds_zero_identity (fun _ => 0) 2 2 3 (by decide)⟩

/-- Packing with `struct.pack("<QQ", ...)` fails exactly when a value exceeds 64 bits. -/
theorem packQQ_eq_none (round_num work_val : Nat) :
    packQQ round_num work_val = none ↔ 2 ^ 64 ≤ work_val ∨ 2 ^ 64 ≤ round_num := by
  unfold packQQ
  by_cases hc : round_num < 2 ^ 64 ∧ work_val < 2 ^ 64
  · rw [if_pos hc]
    simp
    omega
  · rw [if_neg hc]
    simp
    omega

/-- The small variant fails exactly when packing fails. -/
theorem FPEInteger.block_small_none_iff (f : FPEInteger) (work_val round_num out_modulo : Nat) :
    f.block_encrypt_func_small work_val round_num out_modulo = none
      ↔ packQQ round_num work_val = none := by
  unfold FPEInteger.block_encrypt_func_small
  cases packQQ round_num work_val <;> simp

/-- The large variant fails exactly when packing fails. -/
theorem FPEInteger.block_large_none_iff (f : FPEInteger) (work_val round_num out_modulo : Nat) :
    f.block_encrypt_func_large work_val round_num out_modulo = none
      ↔ packQQ round_num work_val = none := by
  unfold FPEInteger.block_encrypt_func_large
  cases packQQ round_num work_val <;> simp

/-- C10: both block-encryption variants fail (with `struct.error`) exactly
when `work_val` or `round_num` does not fit an unsigned 64-bit pack field;
under the packing precondition `modulos[0] ≤ 2 ^ 64` and `rounds ≤ 2 ^ 64`
every value fed to the round function stays below `2 ^ 64`, so the error
branch is unreachable and `encrypt`/`decrypt` are total. -/
theorem round_function_packing_total (aes : Nat → Nat) (rounds radix width : Nat)
    (hradix : 2 ≤ radix)
    (hM : radix ^ ((width + 1) / 2) ≤ 2 ^ 64) (hR : rounds ≤ 2 ^ 64) :
    (∀ (f : FPEInteger) (work_val round_num out_modulo : Nat),
        f.block_encrypt_func_small work_val round_num out_modulo = none
          ↔ 2 ^ 64 ≤ work_val ∨ 2 ^ 64 ≤ round_num) ∧
    (∀ (f : FPEInteger) (work_val round_num out_modulo : Nat),
        f.block_encrypt_func_large work_val round_num out_modulo = none
          ↔ 2 ^ 64 ≤ work_val ∨ 2 ^ 64 ≤ round_num) ∧
    (∀ message : Nat,
      (∃ c, (FPEInteger.init aes rounds radix width).encrypt message = some c) ∧
      (∃ p, (FPEInteger.init aes rounds radix width).decrypt message = some p)) := by
  refine ⟨?_, ?_, ?_⟩
  · intro f work_val round_num out_modulo
    exact (f.block_small_none_iff work_val round_num out_modulo).trans
      (packQQ_eq_none round_num work_val)
  · intro f work_val round_num out_modulo
    exact (f.block_large_none_iff work_val round_num out_modulo).trans
      (packQQ_eq_none round_num work_val)
  · intro message
    set e := FPEInteger.init aes rounds radix width with hedef
    have h0 : 0 < e.modulos0 := pow_pos (by omega) _
    have h1 : 0 < e.modulos1 := pow_pos (by omega) _
    have hM0 : e.modulos0 ≤ 2 ^ 64 := hM
    have hM1 : e.modulos1 ≤ 2 ^ 64 :=
      le_trans (Nat.pow_le_pow_right (by omega) (by omega)) hM
    have hs1 : (e.split_message message).1 < e.modulos0 := Nat.mod_lt _ h0
    have hs2 : (e.split_message message).2 < e.modulos1 := Nat.mod_lt _ h1
    have hrr : e.rounds = rounds := rfl
    have hrlist : ∀ r ∈ List.range e.rounds, r < 2 ^ 64 := by
      intro r hr
      have hlt := List.mem_range.mp hr
      rw [hrr] at hlt
      omega
    constructor
    · obtain ⟨⟨w2, tr⟩, henc⟩ := e.encryptLoopTr_total (List.range e.rounds)
        (e.split_message message) 0 hM0 hM1 h0 h1 hrlist hs1 hs2
      refine ⟨e.join_message w2, ?_⟩
      rw [FPEInteger.encrypt_eq, henc]
      rfl
    · obtain ⟨⟨p0, tr2⟩, hdec⟩ := e.decryptLoopTr_total (List.range e.rounds).reverse
        (e.split_message message) ((e.rounds + 1) % 2) hM0 hM1 h0 h1
        (fun r hr => hrlist r (List.mem_reverse.mp hr)) hs1 hs2
      refine ⟨e.join_message p0, ?_⟩
      rw [FPEInteger.decrypt_eq, hdec]
      rfl

/-- C10 witness: `rounds = 3`, `radix = 2`, `width = 4`. -/
theorem round_function_packing_total_witness :
    (2 ≤ 2 ∧ 2 ^ ((4 + 1) / 2) ≤ 2 ^ 64 ∧ 3 ≤ 2 ^ 64) ∧
    ((∀ (f : FPEInteger) (work_val round_num out_modulo : Nat),
        f.block_encrypt_func_small work_val round_num out_modulo = none
          ↔ 2 ^ 64 ≤ work_val ∨ 2 ^ 64 ≤ round_num) ∧
     (∀ (f : FPEInteger) (work_val round_num out_modulo : Nat),
        f.block_encrypt_func_large work_val round_num out_modulo = none
          ↔ 2 ^ 64 ≤ work_val ∨ 2 ^ 64 ≤ round_num) ∧
     (∀ message : Nat,
       (∃ c, (FPEInteger.init (fun _ => 0) 3 2 4).encrypt message = some c) ∧
       (∃ p, (FPEInteger.init (fun _ => 0) 3 2 4).decrypt message = some p))) :=
  ⟨⟨by decide, by decide, by decide⟩,
    round_function_packing_total (fun _ => 0) 3 2 4 (by decide) (by decide) (by decide)⟩

